import Mathlib

/-!
Verification development for the geometry MCQ generator scripts
(src/code/python/randomShapeGenerator.py and src/code/python/untitled1.py).

The Python scripts are randomized: every call to the process-wide random
source is modelled by an explicit stream argument (a `List` of raw draws
consumed left to right, or a total function from an index to a draw for
loops whose iteration count is bounded by the code itself).  A `while`
loop that waits on randomness is embedded as a recursion on the finite
stream; returning `none` means the loop was still running after the
whole stream was consumed.  Properties about "every generated record"
are stated over all streams for which the function returns `some`.

Floating point geometry (`math.pi`, `math.sqrt`) is embedded over `ℝ`,
and Python's `round` (round-half-to-even) is embedded twice: as a
computable function `round_py : ℚ → ℤ` and as the relation
`ClampsTo : ℝ → ℤ → Prop`, the graph of `clamp_int = int ∘ round`.
-/

/-- Decimal string of an integer: embeds `i2s`, i.e. `str(int(n))`
(randomShapeGenerator.py line 73, untitled1.py line 81). -/
def i2s (n : ℤ) : String := toString n

/-- Python's `random.randint(lo, hi)` (both endpoints included), driven by a
raw draw `k`; every value of `[lo, hi]` is reached as `k` ranges over `ℕ`. -/
def randint (lo hi : ℤ) (k : ℕ) : ℤ := lo + (k : ℤ) % (hi - lo + 1)

theorem randint_mem (lo hi : ℤ) (h : lo ≤ hi) (k : ℕ) :
    lo ≤ randint lo hi k ∧ randint lo hi k ≤ hi := by
  unfold randint
  have hpos : (0 : ℤ) < hi - lo + 1 := by omega
  have h1 : 0 ≤ (k : ℤ) % (hi - lo + 1) := Int.emod_nonneg _ (by omega)
  have h2 : (k : ℤ) % (hi - lo + 1) < hi - lo + 1 := Int.emod_lt_of_pos _ hpos
  omega

/-! ### Decimal representation is injective

Option values are serialized with `i2s`; to reason about distinctness of
the serialized values we prove that the decimal representation of a
nonnegative integer is injective.  The proof folds the digit characters
back into the number, so the representation has a retraction. -/

/-- Fold the digit characters back to the natural number they spell. -/
def decodeDigits (cs : List Char) : ℕ :=
  cs.foldl (fun a c => a * 10 + (c.toNat - 48)) 0

theorem toDigitsCore_acc_eq (fuel n : ℕ) (ds : List Char) :
    Nat.toDigitsCore 10 fuel n ds = Nat.toDigitsCore 10 fuel n [] ++ ds := by
  induction fuel generalizing n ds with
  | zero => simp [Nat.toDigitsCore]
  | succ fuel ih =>
    simp only [Nat.toDigitsCore]
    by_cases h : n / 10 = 0
    · simp [h]
    · simp only [h, if_false]
      rw [ih (n / 10) [Nat.digitChar (n % 10)],
        ih (n / 10) (Nat.digitChar (n % 10) :: ds), List.append_assoc]
      rfl

theorem toDigitsCore_fuel_eq (f₁ f₂ n : ℕ) (hf₁ : n < f₁) (hf₂ : n < f₂)
    (ds : List Char) :
    Nat.toDigitsCore 10 f₁ n ds = Nat.toDigitsCore 10 f₂ n ds := by
  induction n using Nat.strongRecOn generalizing f₁ f₂ ds with
  | _ n ih =>
    match f₁, f₂ with
    | f₁ + 1, f₂ + 1 =>
      simp only [Nat.toDigitsCore]
      by_cases h : n / 10 = 0
      · simp [h]
      · simp only [h, if_false]
        exact ih (n / 10) (Nat.div_lt_self (by omega) (by omega)) _ _
          (by omega) (by omega) _

theorem digitChar_decode {n : ℕ} (h : n < 10) :
    (Nat.digitChar n).toNat - 48 = n := by
  interval_cases n <;> decide

theorem decode_toDigitsCore (n : ℕ) :
    decodeDigits (Nat.toDigitsCore 10 (n + 1) n []) = n := by
  induction n using Nat.strongRecOn with
  | _ n ih =>
    simp only [Nat.toDigitsCore]
    by_cases h : n / 10 = 0
    · simp only [h, if_true]
      simp only [decodeDigits, List.foldl_cons, List.foldl_nil]
      rw [digitChar_decode (Nat.mod_lt n (by omega))]
      omega
    · simp only [h, if_false]
      rw [toDigitsCore_acc_eq]
      rw [toDigitsCore_fuel_eq n (n / 10 + 1) (n / 10)
        (Nat.div_lt_self (by omega) (by omega)) (by omega)]
      have hrec := ih (n / 10) (Nat.div_lt_self (by omega) (by omega))
      simp only [decodeDigits] at hrec ⊢
      rw [List.foldl_append, hrec, List.foldl_cons, List.foldl_nil]
      rw [digitChar_decode (Nat.mod_lt n (by omega))]
      omega

theorem natRepr_inj {m n : ℕ} (h : Nat.repr m = Nat.repr n) : m = n := by
  have hd : Nat.toDigits 10 m = Nat.toDigits 10 n := by
    have := congrArg String.data h
    simpa [Nat.repr, List.asString] using this
  have hm := decode_toDigitsCore m
  have hn := decode_toDigitsCore n
  simp only [Nat.toDigits] at hd
  rw [hd] at hm
  omega

theorem i2s_inj_nonneg {m n : ℤ} (hm : 0 ≤ m) (hn : 0 ≤ n)
    (h : i2s m = i2s n) : m = n := by
  obtain ⟨a, rfl⟩ := Int.eq_ofNat_of_zero_le hm
  obtain ⟨b, rfl⟩ := Int.eq_ofNat_of_zero_le hn
  have : Nat.repr a = Nat.repr b := h
  exact congrArg Int.ofNat (natRepr_inj this)

/-! ### Rounding

`clamp_int(n) = int(round(n))` (randomShapeGenerator.py lines 78-80,
untitled1.py lines 85-86).  Python's one-argument `round` rounds to the
nearest integer and breaks ties toward the even neighbour. -/

/-- Python's built-in `round` on an exact rational input: nearest integer,
ties to the even neighbour. -/
def round_py (q : ℚ) : ℤ :=
  if q - ⌊q⌋ < 1 / 2 then ⌊q⌋
  else if 1 / 2 < q - ⌊q⌋ then ⌊q⌋ + 1
  else if ⌊q⌋ % 2 = 0 then ⌊q⌋ else ⌊q⌋ + 1

/-- The source's `clamp_int` on an exact rational input. -/
def clamp_int (q : ℚ) : ℤ := round_py q

/-- Graph of `clamp_int` over the reals: `ClampsTo x n` says that rounding
`x` to the nearest integer, ties to even, yields `n`.  Used to specify the
float formulas that involve `math.pi` and `math.sqrt`. -/
def ClampsTo (x : ℝ) (n : ℤ) : Prop :=
  |x - n| < 1 / 2 ∨ (|x - n| = 1 / 2 ∧ n % 2 = 0)

/-- Rounding is a function: a real clamps to at most one integer. -/
theorem clampsTo_unique {x : ℝ} {m n : ℤ} (hm : ClampsTo x m)
    (hn : ClampsTo x n) : m = n := by
  have habs : |(m : ℝ) - n| ≤ |x - m| + |x - n| := by
    calc |(m : ℝ) - n| = |(x - n) - (x - m)| := by ring_nf
    _ ≤ |x - n| + |x - m| := abs_sub _ _
    _ = |x - m| + |x - n| := by ring
  have key : ∀ a b : ℤ, |(a : ℝ) - b| < 1 → a = b := by
    intro a b hab
    have h2 : |((a - b : ℤ) : ℝ)| < 1 := by push_cast; exact hab
    have h3 : |a - b| < 1 := by exact_mod_cast h2
    have h4 := abs_lt.mp h3
    omega
  rcases hm with hm | ⟨hm, hme⟩ <;> rcases hn with hn | ⟨hn, hne⟩
  · exact key m n (by linarith)
  · exact key m n (by linarith)
  · exact key m n (by linarith)
  · have h1 : |(m : ℝ) - n| ≤ 1 := by linarith
    have h2 : |((m - n : ℤ) : ℝ)| ≤ 1 := by push_cast; exact h1
    have h3 : |m - n| ≤ 1 := by exact_mod_cast h2
    have h4 := abs_le.mp h3
    omega

/-- The computable rational rounding realizes the real specification. -/
theorem clampsTo_round_py (q : ℚ) : ClampsTo (q : ℝ) (round_py q) := by
  have hfl : (0 : ℚ) ≤ q - ⌊q⌋ := by
    have := Int.floor_le q
    linarith
  have hfu : q - ⌊q⌋ < 1 := by
    have := Int.lt_floor_add_one q
    linarith
  have hflR : (0 : ℝ) ≤ (q : ℝ) - ((⌊q⌋ : ℤ) : ℝ) := by exact_mod_cast hfl
  have hfuR : (q : ℝ) - ((⌊q⌋ : ℤ) : ℝ) < 1 := by exact_mod_cast hfu
  unfold ClampsTo round_py
  by_cases h1 : q - ⌊q⌋ < 1 / 2
  · rw [if_pos h1]
    left
    have h1R : (q : ℝ) - ((⌊q⌋ : ℤ) : ℝ) < 1 / 2 := by
      have := Rat.cast_lt (K := ℝ) |>.mpr h1
      push_cast at this
      linarith
    rw [abs_of_nonneg hflR]
    exact h1R
  · rw [if_neg h1]
    by_cases h2 : 1 / 2 < q - ⌊q⌋
    · rw [if_pos h2]
      left
      have h2R : 1 / 2 < (q : ℝ) - ((⌊q⌋ : ℤ) : ℝ) := by
        have := Rat.cast_lt (K := ℝ) |>.mpr h2
        push_cast at this
        linarith
      rw [abs_of_nonpos (by push_cast; linarith)]
      push_cast
      linarith
    · rw [if_neg h2]
      have heq : q - ⌊q⌋ = 1 / 2 := by linarith
      have heqR : (q : ℝ) - ((⌊q⌋ : ℤ) : ℝ) = 1 / 2 := by
        have := congrArg (fun t : ℚ => (t : ℝ)) heq
        push_cast at this
        linarith
      by_cases h3 : ⌊q⌋ % 2 = 0
      · rw [if_pos h3]
        right
        refine ⟨?_, h3⟩
        rw [abs_of_nonneg hflR]
        exact heqR
      · rw [if_neg h3]
        right
        constructor
        · rw [abs_of_nonpos (by push_cast; linarith)]
          push_cast
          linarith
        · omega

/-- On an exact half, `clamp_int` lands on the even neighbour. -/
theorem clampsTo_half {k n : ℤ} (h : ClampsTo ((k : ℝ) + 1 / 2) n) :
    n % 2 = 0 ∧ (n = k ∨ n = k + 1) := by
  rcases h with h | ⟨habs, heven⟩
  · exfalso
    rcases abs_lt.mp h with ⟨hl, hr⟩
    have hlt : (k : ℝ) < n := by linarith
    have hgt : (n : ℝ) < ((k + 1 : ℤ) : ℝ) := by push_cast; linarith
    have h1 : k < n := by exact_mod_cast hlt
    have h2 : n < k + 1 := by exact_mod_cast hgt
    omega
  · refine ⟨heven, ?_⟩
    rcases (abs_eq (by norm_num : (0 : ℝ) ≤ 1 / 2)).mp habs with h1 | h1
    · left
      have : (n : ℝ) = (k : ℝ) := by linarith
      exact_mod_cast this
    · right
      have : (n : ℝ) = ((k + 1 : ℤ) : ℝ) := by push_cast; linarith
      exact_mod_cast this

/-- The circle circumference at radius 3 clamps to 19 = round(6·π). -/
theorem clampsTo_circ_three : ClampsTo (2 * Real.pi * 3) 19 := by
  left
  have hl : (3.14 : ℝ) < Real.pi := Real.pi_gt_d2
  have hr : Real.pi < 3.15 := Real.pi_lt_d2
  rw [abs_lt]
  constructor <;> push_cast <;> nlinarith

/-! ### Option builders

`mcq_options_int` (randomShapeGenerator.py lines 165-188, spread
parameter defaulted to 8; untitled1.py lines 164-181 is the same loop
without the spread parameter) and `mcq_options_small_set`
(randomShapeGenerator.py lines 191-202; `mcq_options_small` in
untitled1.py lines 184-194).  The candidate set is kept as a duplicate
free list in insertion order; `random.shuffle` is embedded as a draw
driven selection permutation, so every permutation of the candidates is
reachable and the result is always a permutation. -/

/-- Option labels `A`-`E`. -/
def optionLabels : List String := ["A", "B", "C", "D", "E"]

/-- The distractor spread limit: `max(spread, max(6, int(round(abs(correct) * 0.2))))`. -/
def mcqLimit (spread correct : ℤ) : ℤ :=
  max spread (max 6 (round_py ((|correct| : ℚ) * (1 / 5))))

/-- One step of `random.shuffle`: extract the element selected by the raw
draw `k` from the remaining candidates. -/
def pickOut (l : List ℤ) (k : ℕ) : ℤ × List ℤ :=
  match l with
  | [] => (0, [])
  | _ :: _ =>
    let i := k % l.length
    (l.getD i 0, l.take i ++ l.drop (i + 1))

/-- Draw-driven shuffle; with an empty draw stream the list is kept as is.
Every output is a permutation of the input and every permutation is the
output for suitable draws. -/
def shuffleDraws : List ℕ → List ℤ → List ℤ
  | [], l => l
  | k :: ks, l =>
    match l with
    | [] => []
    | _ :: _ =>
      let p := pickOut l k
      p.1 :: shuffleDraws ks p.2

/-- The `while len(cand) < 5` loop of `mcq_options_int`: each draw is a
pair of the raw `randint(1, limit)` draw and the sign choice; a value is
kept only if it is positive and new.  Returns `none` if the stream is
exhausted before 5 candidates are collected. -/
def collectInt (correct limit : ℤ) : List (ℕ × Bool) → List ℤ → Option (List ℤ)
  | [], acc => if 5 ≤ acc.length then some acc else none
  | (d, sgn) :: rest, acc =>
    if 5 ≤ acc.length then some acc
    else
      let delta : ℤ := 1 + (d : ℤ) % limit
      let val : ℤ := correct + (if sgn then delta else -delta)
      if 0 < val ∧ val ∉ acc then collectInt correct limit rest (acc ++ [val])
      else collectInt correct limit rest acc

/-- `mcq_options_int(correct_value, spread)`: collect five candidates around
`correct`, shuffle, and label them `A`-`E`; the correct letter is read off
with `opts.index(correct)`. -/
def mcq_options_int (correct spread : ℤ) (draws : List (ℕ × Bool))
    (shuf : List ℕ) : Option (List (String × String) × String) :=
  match collectInt correct (mcqLimit spread correct) draws [correct] with
  | none => none
  | some cand =>
    let opts := shuffleDraws shuf cand
    some (optionLabels.zip (opts.map i2s),
      optionLabels.getD (opts.indexOf correct) "A")

/-- The candidate pool of `mcq_options_small_set`: `set(candidates)` plus
the correct value. -/
def poolOf (correct : ℤ) (candidates : List ℤ) : List ℤ :=
  (candidates ++ [correct]).dedup

/-- The `while len(chosen) < 5` loop of `mcq_options_small_set`: each raw
draw selects `random.choice(list(pool))`. -/
def collectSmall (pool : List ℤ) : List ℕ → List ℤ → Option (List ℤ)
  | [], acc => if 5 ≤ acc.length then some acc else none
  | k :: rest, acc =>
    if 5 ≤ acc.length then some acc
    else
      let v := pool.getD (k % pool.length) 0
      collectSmall pool rest (if v ∈ acc then acc else acc ++ [v])

/-- `mcq_options_small_set(correct, candidates)`. -/
def mcq_options_small_set (correct : ℤ) (candidates : List ℤ)
    (draws : List ℕ) (shuf : List ℕ) :
    Option (List (String × String) × String) :=
  match collectSmall (poolOf correct candidates) draws [correct] with
  | none => none
  | some chosen =>
    let opts := shuffleDraws shuf chosen
    some (optionLabels.zip (opts.map i2s),
      optionLabels.getD (opts.indexOf correct) "A")

/-! ### Shuffle produces a permutation -/

theorem pickOut_perm (l : List ℤ) (k : ℕ) (h : l ≠ []) :
    List.Perm ((pickOut l k).1 :: (pickOut l k).2) l := by
  match l with
  | [] => exact absurd rfl h
  | x :: xs =>
    simp only [pickOut]
    have hlen : k % (x :: xs).length < (x :: xs).length :=
      Nat.mod_lt _ (by simp)
    have hget : (x :: xs).getD (k % (x :: xs).length) 0 =
        (x :: xs)[k % (x :: xs).length] := by
      rw [List.getD_eq_getElem?_getD, List.getElem?_eq_getElem hlen]
      rfl
    rw [hget]
    have hsplit := List.take_append_drop (k % (x :: xs).length) (x :: xs)
    have hdrop := List.drop_eq_getElem_cons (l := x :: xs)
      (n := k % (x :: xs).length) hlen
    have h1 : List.Perm
        ((x :: xs)[k % (x :: xs).length] ::
          ((x :: xs).take (k % (x :: xs).length) ++
            (x :: xs).drop (k % (x :: xs).length + 1)))
        ((x :: xs).take (k % (x :: xs).length) ++
          (x :: xs)[k % (x :: xs).length] ::
            (x :: xs).drop (k % (x :: xs).length + 1)) :=
      (List.perm_middle).symm
    have h2 : (x :: xs).take (k % (x :: xs).length) ++
          (x :: xs)[k % (x :: xs).length] ::
            (x :: xs).drop (k % (x :: xs).length + 1) = x :: xs := by
      rw [← hdrop]
      exact hsplit
    rw [h2] at h1
    exact h1

theorem shuffleDraws_perm (ks : List ℕ) (l : List ℤ) :
    List.Perm (shuffleDraws ks l) l := by
  induction ks generalizing l with
  | nil => simp [shuffleDraws]
  | cons k ks ih =>
    match l with
    | [] => simp [shuffleDraws]
    | x :: xs =>
      simp only [shuffleDraws]
      exact List.Perm.trans (List.Perm.cons _ (ih _)) (pickOut_perm _ _ (by simp))

/-! ### Candidate collection invariants -/

theorem collectInt_spec (correct limit : ℤ) (draws : List (ℕ × Bool)) :
    ∀ (acc out : List ℤ), acc.length ≤ 5 → acc.Nodup → correct ∈ acc →
      (∀ v ∈ acc, v = correct ∨ 0 < v) →
      collectInt correct limit draws acc = some out →
      out.length = 5 ∧ out.Nodup ∧ correct ∈ out ∧
        ∀ v ∈ out, v = correct ∨ 0 < v := by
  induction draws with
  | nil =>
    intro acc out hlen hnd hmem hpos h
    simp only [collectInt] at h
    by_cases hfull : 5 ≤ acc.length
    · rw [if_pos hfull] at h
      cases h
      exact ⟨by omega, hnd, hmem, hpos⟩
    · rw [if_neg hfull] at h
      cases h
  | cons p rest ih =>
    intro acc out hlen hnd hmem hpos h
    match p with
    | (d, sgn) =>
      simp only [collectInt] at h
      by_cases hfull : 5 ≤ acc.length
      · rw [if_pos hfull] at h
        cases h
        exact ⟨by omega, hnd, hmem, hpos⟩
      · rw [if_neg hfull] at h
        set val : ℤ := correct + (if sgn then 1 + (d : ℤ) % limit
          else -(1 + (d : ℤ) % limit)) with hval
        by_cases hkeep : 0 < val ∧ val ∉ acc
        · rw [if_pos hkeep] at h
          refine ih (acc ++ [val]) out ?_ ?_ ?_ ?_ h
          · simp only [List.length_append, List.length_cons, List.length_nil]
            omega
          · rw [List.nodup_append]
            exact ⟨hnd, List.nodup_singleton _, by
              intro a ha hb
              simp only [List.mem_singleton] at hb
              subst hb
              exact hkeep.2 ha⟩
          · exact List.mem_append_left _ hmem
          · intro v hv
            rcases List.mem_append.mp hv with hv | hv
            · exact hpos v hv
            · simp only [List.mem_singleton] at hv
              subst hv
              exact Or.inr hkeep.1
        · rw [if_neg hkeep] at h
          exact ih acc out hlen hnd hmem hpos h

theorem collectSmall_spec (pool : List ℤ) (hne : pool ≠ []) (draws : List ℕ) :
    ∀ (acc out : List ℤ), acc.length ≤ 5 → acc.Nodup →
      (∀ v ∈ acc, v ∈ pool) →
      collectSmall pool draws acc = some out →
      out.length = 5 ∧ out.Nodup ∧ (∀ v ∈ out, v ∈ pool) ∧
        ∀ v ∈ acc, v ∈ out := by
  induction draws with
  | nil =>
    intro acc out hlen hnd hsub h
    simp only [collectSmall] at h
    by_cases hfull : 5 ≤ acc.length
    · rw [if_pos hfull] at h
      cases h
      exact ⟨by omega, hnd, hsub, fun v hv => hv⟩
    · rw [if_neg hfull] at h
      cases h
  | cons k rest ih =>
    intro acc out hlen hnd hsub h
    simp only [collectSmall] at h
    by_cases hfull : 5 ≤ acc.length
    · rw [if_pos hfull] at h
      cases h
      exact ⟨by omega, hnd, hsub, fun v hv => hv⟩
    · rw [if_neg hfull] at h
      set v : ℤ := pool.getD (k % pool.length) 0 with hv
      by_cases hmem : v ∈ acc
      · rw [if_pos hmem] at h
        exact ih acc out hlen hnd hsub h
      · rw [if_neg hmem] at h
        have hvpool : v ∈ pool := by
          match pool, hne with
          | q :: qs, _ =>
            have hlt : k % (q :: qs).length < (q :: qs).length :=
              Nat.mod_lt _ (by simp)
            rw [hv, List.getD_eq_getElem?_getD, List.getElem?_eq_getElem hlt]
            exact List.getElem_mem hlt
        have hout := ih (acc ++ [v]) out
          (by simp only [List.length_append, List.length_cons,
                List.length_nil]; omega)
          (by rw [List.nodup_append]
              exact ⟨hnd, List.nodup_singleton _, by
                intro a ha hb
                simp only [List.mem_singleton] at hb
                subst hb
                exact hmem ha⟩)
          (by intro w hw
              rcases List.mem_append.mp hw with hw | hw
              · exact hsub w hw
              · simp only [List.mem_singleton] at hw
                subst hw
                exact hvpool)
          h
        exact ⟨hout.1, hout.2.1, hout.2.2.1, fun w hw =>
          hout.2.2.2 w (List.mem_append_left _ hw)⟩

/-- With fewer than five distinct reachable values, the
`while len(chosen) < 5` loop can never exit: the code hangs no matter how
much randomness it consumes. -/
theorem collectSmall_none (pool : List ℤ) (hne : pool ≠ [])
    (hlen : pool.length < 5) (draws : List ℕ) :
    ∀ acc : List ℤ, acc.Nodup → (∀ v ∈ acc, v ∈ pool) →
      collectSmall pool draws acc = none := by
  induction draws with
  | nil =>
    intro acc hnd hsub
    have hb : acc.length ≤ pool.length :=
      (List.subperm_of_subset hnd hsub).length_le
    simp only [collectSmall]
    rw [if_neg (by omega)]
  | cons k rest ih =>
    intro acc hnd hsub
    have hb : acc.length ≤ pool.length :=
      (List.subperm_of_subset hnd hsub).length_le
    simp only [collectSmall]
    rw [if_neg (by omega)]
    set v : ℤ := pool.getD (k % pool.length) 0 with hv
    by_cases hmem : v ∈ acc
    · rw [if_pos hmem]
      exact ih acc hnd hsub
    · rw [if_neg hmem]
      have hvpool : v ∈ pool := by
        match pool, hne with
        | q :: qs, _ =>
          have hlt : k % (q :: qs).length < (q :: qs).length :=
            Nat.mod_lt _ (by simp)
          rw [hv, List.getD_eq_getElem?_getD, List.getElem?_eq_getElem hlt]
          exact List.getElem_mem hlt
      refine ih (acc ++ [v]) ?_ ?_
      · rw [List.nodup_append]
        exact ⟨hnd, List.nodup_singleton _, by
          intro a ha hb2
          simp only [List.mem_singleton] at hb2
          subst hb2
          exact hmem ha⟩
      · intro w hw
        rcases List.mem_append.mp hw with hw | hw
        · exact hsub w hw
        · simp only [List.mem_singleton] at hw
          subst hw
          exact hvpool

/-! ### Label assignment -/

theorem lookup_zip {α : Type} (ls : List String) (vs : List α)
    (hnd : ls.Nodup) (i : ℕ) (hi : i < ls.length) (hv : i < vs.length) :
    (ls.zip vs).lookup ls[i] = some vs[i] := by
  induction ls generalizing vs i with
  | nil => simp at hi
  | cons a ls ih =>
    match vs with
    | [] => simp at hv
    | b :: vs =>
      match i with
      | 0 => simp [List.lookup]
      | i + 1 =>
        have hmem : (a :: ls)[i + 1] ∈ ls := by
          simp only [List.getElem_cons_succ]
          exact List.getElem_mem (by simpa using hi)
        have hne : ((a :: ls)[i + 1] == a) = false := by
          rw [beq_eq_false_iff_ne]
          intro hcontra
          exact (List.nodup_cons.mp hnd).1 (hcontra ▸ hmem)
        simp only [List.zip_cons_cons, List.lookup, hne]
        simpa using ih vs (List.nodup_cons.mp hnd).2 i
          (by simpa using hi) (by simpa using hv)

/-- Shared post-processing of both option builders: looking up the letter
computed by `labels[opts.index(correct)]` in the assembled mapping returns
exactly the decimal string of the computed correct value. -/
theorem zip_lookup_correct (optsInt : List ℤ) (correct : ℤ)
    (hlen : optsInt.length = 5) (hmem : correct ∈ optsInt) :
    (optionLabels.zip (optsInt.map i2s)).lookup
      (optionLabels.getD (optsInt.indexOf correct) "A") = some (i2s correct) := by
  have hidx : optsInt.indexOf correct < optsInt.length :=
    List.indexOf_lt_length.mpr hmem
  have hidx5 : optsInt.indexOf correct < 5 := hlen ▸ hidx
  have hlab : optsInt.indexOf correct < optionLabels.length := by
    simp only [optionLabels, List.length_cons, List.length_nil]
    omega
  have hgetD : optionLabels.getD (optsInt.indexOf correct) "A" =
      optionLabels[optsInt.indexOf correct] := by
    rw [List.getD_eq_getElem?_getD, List.getElem?_eq_getElem hlab]
    rfl
  rw [hgetD]
  have hmap : optsInt.indexOf correct < (optsInt.map i2s).length := by
    simpa using hidx
  rw [lookup_zip optionLabels (optsInt.map i2s) (by decide) _ hlab hmap]
  congr 1
  rw [List.getElem_map]
  congr 1
  exact List.getElem_indexOf hidx

/-! ### Builder-level specifications -/

/-- Every successful run of `mcq_options_int` yields exactly five options,
with pairwise distinct serialized values, exactly one of which is the
serialized correct value; every other value is a positive integer; and the
letter it returns looks up to the serialized correct value. -/
theorem mcq_options_int_spec (correct spread : ℤ) (hc : 0 ≤ correct)
    (draws : List (ℕ × Bool)) (shuf : List ℕ)
    (opts : List (String × String)) (letter : String)
    (h : mcq_options_int correct spread draws shuf = some (opts, letter)) :
    opts.length = 5 ∧ (opts.map Prod.snd).Nodup ∧
      (opts.map Prod.snd).count (i2s correct) = 1 ∧
      (∀ p ∈ opts, p.2 ≠ i2s correct → ∃ m : ℤ, 0 < m ∧ p.2 = i2s m) ∧
      opts.lookup letter = some (i2s correct) := by
  unfold mcq_options_int at h
  match hcol : collectInt correct (mcqLimit spread correct) draws [correct] with
  | none => rw [hcol] at h; cases h
  | some cand =>
    rw [hcol] at h
    simp only [Option.some.injEq, Prod.mk.injEq] at h
    obtain ⟨hopts, hletter⟩ := h
    have hcand := collectInt_spec correct (mcqLimit spread correct) draws
      [correct] cand (by simp) (List.nodup_singleton _) (by simp)
      (by intro v hv; simp only [List.mem_singleton] at hv; exact Or.inl hv)
      hcol
    obtain ⟨hlen5, hnd, hmem, hprop⟩ := hcand
    set optsInt := shuffleDraws shuf cand with hoi
    have hperm := shuffleDraws_perm shuf cand
    have hlen5s : optsInt.length = 5 := hperm.length_eq.trans hlen5
    have hnds : optsInt.Nodup := hperm.nodup_iff.mpr hnd
    have hmems : correct ∈ optsInt := hperm.mem_iff.mpr hmem
    have hprops : ∀ v ∈ optsInt, v = correct ∨ 0 < v := fun v hv =>
      hprop v (hperm.subset hv)
    have hnonneg : ∀ v ∈ optsInt, 0 ≤ v := by
      intro v hv
      rcases hprops v hv with hv1 | hv1
      · omega
      · omega
    have hsnd : opts.map Prod.snd = optsInt.map i2s := by
      rw [← hopts]
      exact List.map_snd_zip _ _ (by simp [optionLabels, hlen5s])
    have hndmap : (optsInt.map i2s).Nodup :=
      hnds.map_on (fun x hx y hy hxy =>
        i2s_inj_nonneg (hnonneg x hx) (hnonneg y hy) hxy)
    refine ⟨?_, ?_, ?_, ?_, ?_⟩
    · rw [← hopts]
      simp [optionLabels, hlen5s]
    · rw [hsnd]
      exact hndmap
    · rw [hsnd]
      exact List.count_eq_one_of_mem hndmap (List.mem_map_of_mem i2s hmems)
    · intro p hp hne
      have hpsnd : p.2 ∈ optsInt.map i2s := by
        rw [← hsnd]
        exact List.mem_map_of_mem Prod.snd hp
      obtain ⟨m, hm, hmval⟩ := List.mem_map.mp hpsnd
      rcases hprops m hm with hm1 | hm1
      · exfalso
        exact hne (hmval ▸ hm1 ▸ rfl)
      · exact ⟨m, hm1, hmval.symm⟩
    · rw [← hopts, ← hletter]
      exact zip_lookup_correct optsInt correct hlen5s hmems

/-- Every successful run of `mcq_options_small_set` yields exactly five
options with pairwise distinct serialized values, exactly one of which is
the serialized correct value, all drawn from the candidate pool; the
returned letter looks up to the serialized correct value. -/
theorem mcq_options_small_set_spec (correct : ℤ) (candidates : List ℤ)
    (hc : 0 ≤ correct) (hcand : ∀ v ∈ candidates, 0 ≤ v)
    (draws shuf : List ℕ) (opts : List (String × String)) (letter : String)
    (h : mcq_options_small_set correct candidates draws shuf =
      some (opts, letter)) :
    opts.length = 5 ∧ (opts.map Prod.snd).Nodup ∧
      (opts.map Prod.snd).count (i2s correct) = 1 ∧
      (∀ p ∈ opts, ∃ m : ℤ, m ∈ correct :: candidates ∧ p.2 = i2s m) ∧
      opts.lookup letter = some (i2s correct) := by
  unfold mcq_options_small_set at h
  match hcol : collectSmall (poolOf correct candidates) draws [correct] with
  | none => rw [hcol] at h; cases h
  | some chosen =>
    rw [hcol] at h
    simp only [Option.some.injEq, Prod.mk.injEq] at h
    obtain ⟨hopts, hletter⟩ := h
    have hpoolne : poolOf correct candidates ≠ [] := by
      unfold poolOf
      intro hcontra
      have : correct ∈ (candidates ++ [correct]).dedup := by
        rw [List.mem_dedup]
        exact List.mem_append_right _ (by simp)
      rw [hcontra] at this
      cases this
    have hchosen := collectSmall_spec (poolOf correct candidates) hpoolne
      draws [correct] chosen (by simp) (List.nodup_singleton _)
      (by intro v hv
          simp only [List.mem_singleton] at hv
          subst hv
          unfold poolOf
          rw [List.mem_dedup]
          exact List.mem_append_right _ (by simp))
      hcol
    obtain ⟨hlen5, hnd, hsubpool, hkeep⟩ := hchosen
    have hmem : correct ∈ chosen := hkeep correct (by simp)
    set optsInt := shuffleDraws shuf chosen with hoi
    have hperm := shuffleDraws_perm shuf chosen
    have hlen5s : optsInt.length = 5 := hperm.length_eq.trans hlen5
    have hnds : optsInt.Nodup := hperm.nodup_iff.mpr hnd
    have hmems : correct ∈ optsInt := hperm.mem_iff.mpr hmem
    have hrange : ∀ v ∈ optsInt, v ∈ correct :: candidates := by
      intro v hv
      have := hsubpool v (hperm.subset hv)
      unfold poolOf at this
      rw [List.mem_dedup] at this
      rcases List.mem_append.mp this with hv1 | hv1
      · exact List.mem_cons_of_mem _ hv1
      · simp only [List.mem_singleton] at hv1
        subst hv1
        exact List.mem_cons_self _ _
    have hnonneg : ∀ v ∈ optsInt, 0 ≤ v := by
      intro v hv
      rcases List.mem_cons.mp (hrange v hv) with hv1 | hv1
      · omega
      · exact hcand v hv1
    have hsnd : opts.map Prod.snd = optsInt.map i2s := by
      rw [← hopts]
      exact List.map_snd_zip _ _ (by simp [optionLabels, hlen5s])
    have hndmap : (optsInt.map i2s).Nodup :=
      hnds.map_on (fun x hx y hy hxy =>
        i2s_inj_nonneg (hnonneg x hx) (hnonneg y hy) hxy)
    refine ⟨?_, ?_, ?_, ?_, ?_⟩
    · rw [← hopts]
      simp [optionLabels, hlen5s]
    · rw [hsnd]
      exact hndmap
    · rw [hsnd]
      exact List.count_eq_one_of_mem hndmap (List.mem_map_of_mem i2s hmems)
    · intro p hp
      have hpsnd : p.2 ∈ optsInt.map i2s := by
        rw [← hsnd]
        exact List.mem_map_of_mem Prod.snd hp
      obtain ⟨m, hm, hmval⟩ := List.mem_map.mp hpsnd
      exact ⟨m, hrange m hm, hmval.symm⟩
    · rw [← hopts, ← hletter]
      exact zip_lookup_correct optsInt correct hlen5s hmems

/-! ### Claim C1 -/

/-- C1 (counterexample): a rectangle symmetry question calls
`mcq_options_small_set(2, [0, 1, 2, 3, 4])` (randomShapeGenerator.py
line 288); with these draws the generated record's option mapping
contains the value `"0"`, which is not positive, refuting the claim that
all five option values of every generated record are positive. -/
theorem C1_counterexample :
    mcq_options_small_set 2 [0, 1, 2, 3, 4] [0, 1, 2, 3] [] =
      some ([("A", "2"), ("B", "0"), ("C", "1"), ("D", "3"), ("E", "4")],
        "A") ∧
    ("B", i2s 0) ∈
      [("A", "2"), ("B", "0"), ("C", "1"), ("D", "3"), ("E", "4")] ∧
    ¬ (0 : ℤ) > 0 := by
  refine ⟨by decide, by decide, by decide⟩

/-- C1 (amended): every generated record's option mapping holds exactly 5
entries with pairwise distinct serialized values, exactly one of them the
serialized computed correct value; every non-correct value produced by the
integer builder is positive (option values from the symmetry candidate
pools, and a correct value that rounds to 0, may be 0).  Both option
builders are covered, hence every shape, tier and question kind. -/
theorem C1_options_invariant :
    (∀ (correct spread : ℤ) (draws : List (ℕ × Bool)) (shuf : List ℕ)
        (opts : List (String × String)) (letter : String), 0 ≤ correct →
        mcq_options_int correct spread draws shuf = some (opts, letter) →
        opts.length = 5 ∧ (opts.map Prod.snd).Nodup ∧
          (opts.map Prod.snd).count (i2s correct) = 1 ∧
          ∀ p ∈ opts, p.2 ≠ i2s correct → ∃ m : ℤ, 0 < m ∧ p.2 = i2s m) ∧
    (∀ (correct : ℤ) (candidates : List ℤ) (draws shuf : List ℕ)
        (opts : List (String × String)) (letter : String),
        0 ≤ correct → (∀ v ∈ candidates, 0 ≤ v) →
        mcq_options_small_set correct candidates draws shuf =
          some (opts, letter) →
        opts.length = 5 ∧ (opts.map Prod.snd).Nodup ∧
          (opts.map Prod.snd).count (i2s correct) = 1) := by
  constructor
  · intro correct spread draws shuf opts letter hc h
    have := mcq_options_int_spec correct spread hc draws shuf opts letter h
    exact ⟨this.1, this.2.1, this.2.2.1, this.2.2.2.1⟩
  · intro correct candidates draws shuf opts letter hc hcand h
    have := mcq_options_small_set_spec correct candidates hc hcand
      draws shuf opts letter h
    exact ⟨this.1, this.2.1, this.2.2.1⟩

/-- The spread limit used by `mcq_options_int(25)` with the default
spread: `max(8, max(6, round(25 * 0.2))) = 8`. -/
theorem mcqLimit_8_25 : mcqLimit 8 25 = 8 := by
  unfold mcqLimit round_py
  have h1 : |((25 : ℤ) : ℚ)| * (1 / 5) = 5 := by norm_num
  rw [h1]
  have h2 : ⌊(5 : ℚ)⌋ = 5 := by norm_num
  rw [h2]
  rw [if_pos (by norm_num)]
  decide

/-- Concrete evaluation of `mcq_options_int` used by witnesses. -/
theorem mcq_int_25_eval :
    mcq_options_int 25 8 [(0, true), (1, true), (2, true), (3, true)] [] =
      some ([("A", "25"), ("B", "26"), ("C", "27"), ("D", "28"),
        ("E", "29")], "A") := by
  unfold mcq_options_int
  rw [mcqLimit_8_25]
  decide

/-- Witness for C1 (amended) at concrete runs of both builders. -/
theorem C1_options_invariant_witness :
    (([("A", "25"), ("B", "26"), ("C", "27"), ("D", "28"), ("E", "29")].map
        (Prod.snd (α := String))).count (i2s 25) = 1 ∧
      ([("A", "2"), ("B", "0"), ("C", "1"), ("D", "3"), ("E", "4")].map
        (Prod.snd (α := String))).count (i2s 2) = 1) := by
  have h1 := C1_options_invariant.1 25 8
    [(0, true), (1, true), (2, true), (3, true)] []
    [("A", "25"), ("B", "26"), ("C", "27"), ("D", "28"), ("E", "29")] "A"
    (by decide) mcq_int_25_eval
  have h2 := C1_options_invariant.2 2 [0, 1, 2, 3, 4] [0, 1, 2, 3] []
    [("A", "2"), ("B", "0"), ("C", "1"), ("D", "3"), ("E", "4")] "A"
    (by decide) (by decide) (by decide)
  exact ⟨h1.2.2.1, h2.2.2⟩

/-! ### Claim C2 -/

/-- C2: for every generated question, looking up the recorded correct
letter in the option mapping returns exactly the decimal string of the
originally computed correct value — for both option builders, hence for
every shape and question kind.  The letter is re-derived from
`opts.index(correct)` before stringification, so no rounding or
formatting mismatch can occur. -/
theorem C2_lookup_traceable :
    (∀ (correct spread : ℤ) (draws : List (ℕ × Bool)) (shuf : List ℕ)
        (opts : List (String × String)) (letter : String),
        mcq_options_int correct spread draws shuf = some (opts, letter) →
        opts.lookup letter = some (i2s correct)) ∧
    (∀ (correct : ℤ) (candidates : List ℤ) (draws shuf : List ℕ)
        (opts : List (String × String)) (letter : String),
        mcq_options_small_set correct candidates draws shuf =
          some (opts, letter) →
        opts.lookup letter = some (i2s correct)) := by
  constructor
  · intro correct spread draws shuf opts letter h
    unfold mcq_options_int at h
    match hcol : collectInt correct (mcqLimit spread correct) draws [correct] with
    | none => rw [hcol] at h; cases h
    | some cand =>
      rw [hcol] at h
      simp only [Option.some.injEq, Prod.mk.injEq] at h
      obtain ⟨hopts, hletter⟩ := h
      have hcand := collectInt_spec correct (mcqLimit spread correct) draws
        [correct] cand (by simp) (List.nodup_singleton _) (by simp)
        (by intro v hv; simp only [List.mem_singleton] at hv; exact Or.inl hv)
        hcol
      have hperm := shuffleDraws_perm shuf cand
      rw [← hopts, ← hletter]
      exact zip_lookup_correct (shuffleDraws shuf cand) correct
        (hperm.length_eq.trans hcand.1) (hperm.mem_iff.mpr hcand.2.2.1)
  · intro correct candidates draws shuf opts letter h
    unfold mcq_options_small_set at h
    match hcol : collectSmall (poolOf correct candidates) draws [correct] with
    | none => rw [hcol] at h; cases h
    | some chosen =>
      rw [hcol] at h
      simp only [Option.some.injEq, Prod.mk.injEq] at h
      obtain ⟨hopts, hletter⟩ := h
      have hpoolne : poolOf correct candidates ≠ [] := by
        unfold poolOf
        intro hcontra
        have : correct ∈ (candidates ++ [correct]).dedup := by
          rw [List.mem_dedup]
          exact List.mem_append_right _ (by simp)
        rw [hcontra] at this
        cases this
      have hchosen := collectSmall_spec (poolOf correct candidates) hpoolne
        draws [correct] chosen (by simp) (List.nodup_singleton _)
        (by intro v hv
            simp only [List.mem_singleton] at hv
            subst hv
            unfold poolOf
            rw [List.mem_dedup]
            exact List.mem_append_right _ (by simp))
        hcol
      have hperm := shuffleDraws_perm shuf chosen
      rw [← hopts, ← hletter]
      exact zip_lookup_correct (shuffleDraws shuf chosen) correct
        (hperm.length_eq.trans hchosen.1)
        (hperm.mem_iff.mpr (hchosen.2.2.2 correct (by simp)))

/-- Witness for C2 at concrete runs of both builders. -/
theorem C2_lookup_traceable_witness :
    ([("A", "25"), ("B", "26"), ("C", "27"), ("D", "28"),
        ("E", "29")].lookup "A" = some (i2s 25)) ∧
    ([("A", "2"), ("B", "0"), ("C", "1"), ("D", "3"),
        ("E", "4")].lookup "A" = some (i2s 2)) :=
  ⟨C2_lookup_traceable.1 25 8 [(0, true), (1, true), (2, true), (3, true)]
      [] _ _ mcq_int_25_eval,
    C2_lookup_traceable.2 2 [0, 1, 2, 3, 4] [0, 1, 2, 3] [] _ _ (by decide)⟩

/-! ### Claim C4 -/

/-- With a draw stream that repeats the same delta, the
`while len(cand) < 5` loop of `mcq_options_int` makes no progress after
the second candidate: there is no retry cap, so no finite number of draws
is guaranteed to finish. -/
theorem collectInt_stuck (n : ℕ) :
    ∀ acc : List ℤ, acc = [25] ∨ acc = [25, 24] →
      collectInt 25 8 (List.replicate n (0, false)) acc = none := by
  induction n with
  | zero =>
    rintro acc (rfl | rfl) <;> decide
  | succ n ih =>
    rintro acc (rfl | rfl)
    · rw [List.replicate_succ]
      simp only [collectInt]
      rw [if_neg (by decide)]
      rw [if_pos (by decide)]
      exact ih [25, 24] (Or.inr rfl)
    · rw [List.replicate_succ]
      simp only [collectInt]
      rw [if_neg (by decide)]
      rw [if_neg (by decide)]
      exact ih [25, 24] (Or.inr rfl)

/-- C4: the claim (and the spec) requires a bounded retry budget with a
`GenerationError` on exhaustion, but neither loop has any cap.  First
conjunct: the symmetry-pool builder, as called for an isosceles-triangle
(or trapezium) symmetry question — `mcq_options_small_set(1, [0,1,2,3])`,
randomShapeGenerator.py line 353 — can never terminate, for any random
stream, because only 4 distinct values are reachable.  Second conjunct:
the integer builder admits arbitrarily long non-terminating runs — for
every `n` there is a stream of `n` draws after which it is still looping —
so its retries are not bounded either. -/
theorem C4_no_retry_cap :
    (∀ draws shuf : List ℕ,
      mcq_options_small_set 1 [0, 1, 2, 3] draws shuf = none) ∧
    (∀ n : ℕ,
      mcq_options_int 25 8 (List.replicate n (0, false)) [] = none) := by
  constructor
  · intro draws shuf
    unfold mcq_options_small_set
    rw [collectSmall_none (poolOf 1 [0, 1, 2, 3]) (by decide) (by decide)
      draws [1] (List.nodup_singleton _) (by decide)]
  · intro n
    unfold mcq_options_int
    rw [mcqLimit_8_25]
    rw [collectInt_stuck n [25] (Or.inl rfl)]

/-! ### Claim C3 -/

/-- Difficulty tiers (randomShapeGenerator.py lines 45-49, untitled1.py
lines 46-50). -/
def DIFF_RANGES : List (String × (ℤ × ℤ)) :=
  [("easy", (1, 10)), ("medium", (11, 50)), ("difficult", (51, 100))]

/-- Dimension sampling of `gen_rectangle` (randomShapeGenerator.py lines
261-264, untitled1.py lines 227-230): draw width and height, and bump the
width by one when they collide. -/
def gen_rectangle_dims (lo hi : ℤ) (kw kh : ℕ) : ℤ × ℤ :=
  let w := randint lo hi kw
  let h := randint lo hi kh
  (if w = h then w + 1 else w, h)

/-- Dimension sampling of `gen_trapezium` (randomShapeGenerator.py lines
417-421): the bottom is forced at least two above the top, then clipped. -/
def gen_trapezium_dims (lo hi : ℤ) (kt kb kh : ℕ) : ℤ × ℤ × ℤ :=
  let top := randint lo hi kt
  let bottom0 := randint (max (top + 2) (lo + 2)) (hi + max 0 (top - lo)) kb
  let bottom := min bottom0 (max (top + 2) hi)
  let h := randint lo hi kh
  (top, bottom, h)

/-- C3 (counterexample): in the easy tier `[1, 10]`, drawing width and
height both equal to 10 makes `gen_rectangle` bump the width to 11, which
lies outside the tier's declared range — refuting the claim that all
sampled dimensions lie within `[low, high]`. -/
theorem C3_counterexample :
    gen_rectangle_dims 1 10 9 9 = (11, 10) ∧
    ("easy", ((1 : ℤ), (10 : ℤ))) ∈ DIFF_RANGES ∧
    ¬ ((1 : ℤ) ≤ 11 ∧ (11 : ℤ) ≤ 10) := by
  refine ⟨by decide, by decide, by decide⟩

/-- C3 (amended): for every tier range with `low + 2 ≤ high` (all three
declared tiers qualify), every rectangle height lies in `[low, high]` and
the width lies in `[low, high + 1]` (it exceeds `high` only through the
collision bump); every trapezium top and height lie in `[low, high]`, and
the bottom lies in `[top + 2, high + 2]`.  All other draws are plain
`randint(low, high)` calls, which stay in range by `randint_mem`. -/
theorem C3_dims_in_range :
    ∀ (lo hi : ℤ), lo + 2 ≤ hi →
      (∀ kw kh : ℕ,
        lo ≤ (gen_rectangle_dims lo hi kw kh).1 ∧
          (gen_rectangle_dims lo hi kw kh).1 ≤ hi + 1 ∧
          lo ≤ (gen_rectangle_dims lo hi kw kh).2 ∧
          (gen_rectangle_dims lo hi kw kh).2 ≤ hi) ∧
      (∀ kt kb kh : ℕ,
        lo ≤ (gen_trapezium_dims lo hi kt kb kh).1 ∧
          (gen_trapezium_dims lo hi kt kb kh).1 ≤ hi ∧
          (gen_trapezium_dims lo hi kt kb kh).1 + 2 ≤
            (gen_trapezium_dims lo hi kt kb kh).2.1 ∧
          (gen_trapezium_dims lo hi kt kb kh).2.1 ≤ hi + 2 ∧
          lo ≤ (gen_trapezium_dims lo hi kt kb kh).2.2 ∧
          (gen_trapezium_dims lo hi kt kb kh).2.2 ≤ hi) := by
  intro lo hi hrange
  constructor
  · intro kw kh
    unfold gen_rectangle_dims
    dsimp only
    obtain ⟨hw1, hw2⟩ := randint_mem lo hi (by omega) kw
    obtain ⟨hh1, hh2⟩ := randint_mem lo hi (by omega) kh
    by_cases hc : randint lo hi kw = randint lo hi kh
    · rw [if_pos hc]
      refine ⟨by omega, by omega, hh1, hh2⟩
    · rw [if_neg hc]
      refine ⟨hw1, by omega, hh1, hh2⟩
  · intro kt kb kh
    unfold gen_trapezium_dims
    dsimp only
    obtain ⟨ht1, ht2⟩ := randint_mem lo hi (by omega) kt
    obtain ⟨hh1, hh2⟩ := randint_mem lo hi (by omega) kh
    obtain ⟨hb1, hb2⟩ := randint_mem (max (randint lo hi kt + 2) (lo + 2))
      (hi + max 0 (randint lo hi kt - lo)) (by omega) kb
    refine ⟨ht1, ht2, by omega, by omega, hh1, hh2⟩

/-- Witness for C3 (amended) at the easy tier with concrete draws. -/
theorem C3_dims_in_range_witness :
    ((1 : ℤ) ≤ (gen_rectangle_dims 1 10 9 9).1 ∧
      (gen_rectangle_dims 1 10 9 9).1 ≤ 11 ∧
      (1 : ℤ) ≤ (gen_rectangle_dims 1 10 9 9).2 ∧
      (gen_rectangle_dims 1 10 9 9).2 ≤ 10) ∧
    ((1 : ℤ) ≤ (gen_trapezium_dims 1 10 9 0 3).1 ∧
      (gen_trapezium_dims 1 10 9 0 3).1 ≤ 10 ∧
      (gen_trapezium_dims 1 10 9 0 3).1 + 2 ≤
        (gen_trapezium_dims 1 10 9 0 3).2.1 ∧
      (gen_trapezium_dims 1 10 9 0 3).2.1 ≤ 12 ∧
      (1 : ℤ) ≤ (gen_trapezium_dims 1 10 9 0 3).2.2 ∧
      (gen_trapezium_dims 1 10 9 0 3).2.2 ≤ 10) :=
  ⟨(C3_dims_in_range 1 10 (by decide)).1 9 9,
    (C3_dims_in_range 1 10 (by decide)).2 9 0 3⟩

/-! ### Claim C5 -/

/-- The strict triangle inequality checked by `valid(a, b, c)`
(randomShapeGenerator.py lines 363-364, untitled1.py lines 319-320). -/
def triValid (a b c : ℤ) : Prop := a + b > c ∧ a + c > b ∧ b + c > a

instance (a b c : ℤ) : Decidable (triValid a b c) :=
  inferInstanceAs (Decidable (_ ∧ _ ∧ _))

/-- One triple of `randint` draws for the three sides. -/
def triOf (lo hi : ℤ) (d : ℕ × ℕ × ℕ) : ℤ × ℤ × ℤ :=
  (randint lo hi d.1, randint lo hi d.2.1, randint lo hi d.2.2)

/-- The resampling loop of `gen_scalene_triangle` (randomShapeGenerator.py
lines 365-370): `while not valid(a, b, c) and attempts < 100`, returning
the current triple together with the number of resamples spent. -/
def scaleneGo (s : ℕ → ℤ × ℤ × ℤ) : ℕ → ℕ → (ℤ × ℤ × ℤ) × ℕ
  | 0, attempts => (s attempts, attempts)
  | fuel + 1, attempts =>
    if triValid (s attempts).1 (s attempts).2.1 (s attempts).2.2
    then (s attempts, attempts)
    else scaleneGo s fuel (attempts + 1)

/-- Side sampling of `gen_scalene_triangle`: initial draw plus at most 100
resamples; the triple in force when the budget runs out is used as is. -/
def gen_scalene_sides (lo hi : ℤ) (f : ℕ → ℕ × ℕ × ℕ) : (ℤ × ℤ × ℤ) × ℕ :=
  scaleneGo (fun i => triOf lo hi (f i)) 100 0

theorem scaleneGo_result (s : ℕ → ℤ × ℤ × ℤ) (fuel a : ℕ) :
    (scaleneGo s fuel a).1 = s (scaleneGo s fuel a).2 ∧
      a ≤ (scaleneGo s fuel a).2 ∧ (scaleneGo s fuel a).2 ≤ a + fuel := by
  induction fuel generalizing a with
  | zero =>
    exact ⟨rfl, Nat.le_refl _, Nat.le_add_right a 0⟩
  | succ fuel ih =>
    simp only [scaleneGo]
    by_cases hv : triValid (s a).1 (s a).2.1 (s a).2.2
    · rw [if_pos hv]
      exact ⟨rfl, Nat.le_refl _, by omega⟩
    · rw [if_neg hv]
      obtain ⟨h1, h2, h3⟩ := ih (a + 1)
      exact ⟨h1, by omega, by omega⟩

theorem scaleneGo_early (s : ℕ → ℤ × ℤ × ℤ) (fuel a : ℕ)
    (h : (scaleneGo s fuel a).2 < a + fuel) :
    triValid (scaleneGo s fuel a).1.1 (scaleneGo s fuel a).1.2.1
      (scaleneGo s fuel a).1.2.2 := by
  induction fuel generalizing a with
  | zero =>
    exfalso
    simp only [scaleneGo] at h
    omega
  | succ fuel ih =>
    simp only [scaleneGo] at h ⊢
    by_cases hv : triValid (s a).1 (s a).2.1 (s a).2.2
    · rw [if_pos hv] at h ⊢
      exact hv
    · rw [if_neg hv] at h ⊢
      exact ih (a + 1) (by omega)

/-- C5 (counterexample): with every draw giving the degenerate sides
`(1, 1, 10)` in the easy tier, the 100-resample budget runs out and the
generator uses the degenerate triple to build a question, refuting the
claim that every accepted triple satisfies the triangle inequality. -/
theorem C5_counterexample :
    gen_scalene_sides 1 10 (fun _ => (0, 0, 9)) = ((1, 1, 10), 100) ∧
    ¬ triValid 1 1 10 := by
  refine ⟨by decide, by decide⟩

/-- C5 (amended): the resampling budget is 100, the accepted triple is
always one of the sampled triples, and whenever the loop stops before
exhausting the budget the accepted triple satisfies the strict triangle
inequality; only a run that exhausts all 100 resamples can fall back to a
degenerate triple. -/
theorem C5_scalene_guard :
    ∀ (lo hi : ℤ) (f : ℕ → ℕ × ℕ × ℕ),
      (gen_scalene_sides lo hi f).2 ≤ 100 ∧
      (gen_scalene_sides lo hi f).1 =
        triOf lo hi (f (gen_scalene_sides lo hi f).2) ∧
      ((gen_scalene_sides lo hi f).2 < 100 →
        triValid (gen_scalene_sides lo hi f).1.1
          (gen_scalene_sides lo hi f).1.2.1
          (gen_scalene_sides lo hi f).1.2.2) := by
  intro lo hi f
  obtain ⟨h1, h2, h3⟩ :=
    scaleneGo_result (fun i => triOf lo hi (f i)) 100 0
  refine ⟨by simpa using h3, h1, ?_⟩
  intro hlt
  exact scaleneGo_early (fun i => triOf lo hi (f i)) 100 0 (by simpa using hlt)

/-- Witness for C5 (amended): a first draw that is already a valid
triangle is accepted with zero resamples and satisfies the inequality. -/
theorem C5_scalene_guard_witness :
    (gen_scalene_sides 1 10 (fun _ => (2, 2, 3))).2 ≤ 100 ∧
    triValid (gen_scalene_sides 1 10 (fun _ => (2, 2, 3))).1.1
      (gen_scalene_sides 1 10 (fun _ => (2, 2, 3))).1.2.1
      (gen_scalene_sides 1 10 (fun _ => (2, 2, 3))).1.2.2 :=
  ⟨(C5_scalene_guard 1 10 (fun _ => (2, 2, 3))).1,
    (C5_scalene_guard 1 10 (fun _ => (2, 2, 3))).2.2 (by decide)⟩

/-! ### Claim C6 -/

/-- Missing-dimension branch of `gen_rectangle` (randomShapeGenerator.py
lines 278-284): the question states the area `w*h` and hides the width;
returns (stated area, correct hidden value). -/
def rect_missing (w h : ℤ) : ℤ × ℤ := (w * h, w)

/-- The stated circumference of the circle missing-dimension question
(randomShapeGenerator.py lines 505-510): `C = clamp_int(2 * math.pi * r)`,
as a relation between the radius and the stated value. -/
def circle_circumference_stated (r C : ℤ) : Prop :=
  ClampsTo (2 * Real.pi * r) C

/-- The stated area of the equilateral-triangle missing-dimension question
(randomShapeGenerator.py lines 310-316):
`area = clamp_int((math.sqrt(3) / 4.0) * s * s)`. -/
def equilateral_area_stated (s A : ℤ) : Prop :=
  ClampsTo (Real.sqrt 3 / 4 * s * s) A

/-- C6: the missing-dimension questions round-trip.  For the rectangle,
multiplying the correct hidden width by the revealed height reproduces the
stated area exactly.  For the circle and the equilateral triangle the
stated quantity is the clamp of the same formula that recomputation at the
correct hidden value evaluates, so by functionality of rounding the
recomputed value equals the stated one. -/
theorem C6_missing_round_trip :
    (∀ w h : ℤ, (rect_missing w h).2 * h = (rect_missing w h).1) ∧
    (∀ r C C2 : ℤ, circle_circumference_stated r C →
      circle_circumference_stated r C2 → C2 = C) ∧
    (∀ s A A2 : ℤ, equilateral_area_stated s A →
      equilateral_area_stated s A2 → A2 = A) := by
  refine ⟨fun w h => rfl, ?_, ?_⟩
  · intro r C C2 h1 h2
    exact clampsTo_unique h2 h1
  · intro s A A2 h1 h2
    exact clampsTo_unique h2 h1

/-- The circle circumference at radius 3 clamps to 19 = round(6·π). -/
theorem clampsTo_circ_three_aux : ClampsTo (2 * Real.pi * (3 : ℤ)) 19 := by
  have := clampsTo_circ_three
  have hcast : ((3 : ℤ) : ℝ) = (3 : ℝ) := by norm_num
  rw [hcast]
  exact this

/-- The equilateral-triangle area at side 2 clamps to 2 = round(√3). -/
theorem clampsTo_equilateral_two : ClampsTo (Real.sqrt 3 / 4 * (2 : ℤ) * 2) 2 := by
  have hsq := Real.sq_sqrt (show (0 : ℝ) ≤ 3 by norm_num)
  have hnn := Real.sqrt_nonneg 3
  have hlow : (1.5 : ℝ) < Real.sqrt 3 := by nlinarith
  have hhigh : Real.sqrt 3 < 2.5 := by nlinarith
  left
  rw [abs_lt]
  have hc : ((2 : ℤ) : ℝ) = 2 := by norm_num
  rw [hc]
  constructor <;> nlinarith

/-- Witness for C6 at concrete questions: a 3-by-4 rectangle, the circle
of radius 3 with stated circumference 19, and the equilateral triangle of
side 2 with stated area 2. -/
theorem C6_missing_round_trip_witness :
    ((rect_missing 3 4).2 * 4 = (rect_missing 3 4).1) ∧
    (19 : ℤ) = 19 ∧ (2 : ℤ) = 2 :=
  ⟨C6_missing_round_trip.1 3 4,
    C6_missing_round_trip.2.1 3 19 19 clampsTo_circ_three_aux
      clampsTo_circ_three_aux,
    C6_missing_round_trip.2.2 2 2 2 clampsTo_equilateral_two
      clampsTo_equilateral_two⟩

/-! ### Claim C7 -/

/-- Area of the square (randomShapeGenerator.py line 240): `s * s`, an
exact integer, no rounding involved. -/
def gen_square_area (s : ℤ) : ℤ := s * s

/-- C7: every non-integer formula result is clamped with
`int(round(x))`, and the rounding mode is round-half-to-even: the
computable embedding of Python's `round` realizes the `ClampsTo`
specification, an exact half always lands on the even neighbour, and in
particular the square of side 5 has area exactly 25 while the circle of
radius 3 has circumference `round(6·π) = 19`. -/
theorem C7_rounding_mode :
    (∀ k n : ℤ, ClampsTo ((k : ℝ) + 1 / 2) n →
      n % 2 = 0 ∧ (n = k ∨ n = k + 1)) ∧
    (∀ q : ℚ, ClampsTo (q : ℝ) (clamp_int q)) ∧
    (∀ k : ℤ, clamp_int ((k : ℚ) + 1 / 2) = if k % 2 = 0 then k else k + 1) ∧
    gen_square_area 5 = 25 ∧ ClampsTo (2 * Real.pi * 3) 19 := by
  refine ⟨fun k n h => clampsTo_half h, fun q => clampsTo_round_py q, ?_,
    by decide, clampsTo_circ_three⟩
  intro k
  unfold clamp_int round_py
  have hfloor : ⌊(k : ℚ) + 1 / 2⌋ = k := by
    rw [Int.floor_int_add]
    norm_num
  rw [hfloor]
  rw [show (k : ℚ) + 1 / 2 - (k : ℤ) = 1 / 2 by ring]
  rw [if_neg (by norm_num), if_neg (by norm_num)]

/-- Witness for C7: the half `1 + 1/2` rounds to the even neighbour 2. -/
theorem C7_rounding_mode_witness :
    ((2 : ℤ) % 2 = 0 ∧ ((2 : ℤ) = 1 ∨ (2 : ℤ) = 1 + 1)) ∧
    clamp_int ((3 : ℚ) + 1 / 2) = if (3 : ℤ) % 2 = 0 then 3 else 3 + 1 := by
  refine ⟨C7_rounding_mode.1 1 2 ?_, C7_rounding_mode.2.2.1 3⟩
  right
  constructor
  · rw [show ((1 : ℤ) : ℝ) + 1 / 2 - ((2 : ℤ) : ℝ) = -(1 / 2) by
      push_cast; ring]
    rw [abs_neg, abs_of_nonneg (by norm_num)]
  · decide

/-! ### Claim C9 -/

/-- The question kinds (randomShapeGenerator.py line 576). -/
def Q_TYPES : List String := ["area", "perimeter", "missing", "symmetry"]

/-- The pool `gen_one` draws the question kind from
(randomShapeGenerator.py line 582): symmetry is withheld for the circle. -/
def qtype_pool (shape : String) : List String :=
  if shape ≠ "circle" then Q_TYPES else ["area", "perimeter", "missing"]

/-- `random.choice` over the kind pool, driven by a raw draw. -/
def choose_qtype (shape : String) (k : ℕ) : String :=
  (qtype_pool shape).getD (k % (qtype_pool shape).length) "area"

/-- The question text produced by each branch of `gen_circle`
(randomShapeGenerator.py lines 497-516); the final `else` branch is the
symmetry fallback, which re-asks the circumference. -/
def circle_qtext (qtype : String) (C : ℤ) : String :=
  if qtype = "area" then "What is the area of the given shape?"
  else if qtype = "perimeter" then
    "What is the circumference of the given shape?"
  else if qtype = "missing" then
    "The circumference is " ++ i2s C ++ " cm. Find the radius (in cm)."
  else "What is the circumference of the given shape?"

/-- The correct answer produced by each branch of `gen_circle`, as a
relation (the area and circumference branches clamp a multiple of π). -/
def circle_answer (r : ℤ) (qtype : String) (v : ℤ) : Prop :=
  if qtype = "area" then ClampsTo (Real.pi * r * r) v
  else if qtype = "perimeter" then ClampsTo (2 * Real.pi * r) v
  else if qtype = "missing" then v = r
  else ClampsTo (2 * Real.pi * r) v

/-- C9: a symmetry question is never generated for the circle.  The kind
pool for the circle is exactly `[area, perimeter, missing]`, so every
draw lands in it; had a symmetry kind reached `gen_circle` anyway, its
fallback branch emits exactly the circumference question (same text, same
answer); and no branch of `gen_circle` ever produces the symmetry question
text. -/
theorem C9_circle_no_symmetry :
    (∀ k : ℕ, choose_qtype "circle" k ∈
      (["area", "perimeter", "missing"] : List String)) ∧
    (∀ C : ℤ, circle_qtext "symmetry" C = circle_qtext "perimeter" C) ∧
    (∀ r v : ℤ, circle_answer r "symmetry" v ↔ circle_answer r "perimeter" v) ∧
    (∀ (qtype : String) (C : ℤ), circle_qtext qtype C ≠
      "How many lines of symmetry does this shape contain?") := by
  refine ⟨?_, ?_, ?_, ?_⟩
  · intro k
    have hpool : qtype_pool "circle" = ["area", "perimeter", "missing"] := by
      decide
    unfold choose_qtype
    rw [hpool]
    have h3 : k % 3 < 3 := Nat.mod_lt _ (by omega)
    have : k % 3 = 0 ∨ k % 3 = 1 ∨ k % 3 = 2 := by omega
    rcases this with h | h | h <;> simp [h]
  · intro C
    rfl
  · intro r v
    unfold circle_answer
    rw [if_neg (by decide), if_neg (by decide), if_neg (by decide),
      if_neg (by decide), if_pos rfl]
  · intro qtype C hcontra
    unfold circle_qtext at hcontra
    by_cases h1 : qtype = "area"
    · rw [if_pos h1] at hcontra
      exact absurd hcontra (by decide)
    · rw [if_neg h1] at hcontra
      by_cases h2 : qtype = "perimeter"
      · rw [if_pos h2] at hcontra
        exact absurd hcontra (by decide)
      · rw [if_neg h2] at hcontra
        by_cases h3 : qtype = "missing"
        · rw [if_pos h3] at hcontra
          have hhead : ("The circumference is " ++ i2s C ++
              " cm. Find the radius (in cm).").data.head? = some 'T' := rfl
          rw [hcontra] at hhead
          exact absurd hhead (by decide)
        · rw [if_neg h3] at hcontra
          exact absurd hcontra (by decide)

/-- Witness for C9: the perimeter answer relation transports through the
symmetry fallback at radius 3, value 19. -/
theorem C9_circle_no_symmetry_witness :
    circle_answer 3 "symmetry" 19 ∧
    choose_qtype "circle" 7 ∈ (["area", "perimeter", "missing"] : List String) :=
  ⟨(C9_circle_no_symmetry.2.2.1 3 19).mpr
      (by unfold circle_answer
          rw [if_neg (by decide), if_pos rfl]
          exact clampsTo_circ_three_aux),
    C9_circle_no_symmetry.1 7⟩

/-! ### Claim C8 -/

/-- The serialized question record: `{question, correct_answer, options,
difficulty_level, img_path}` (untitled1.py lines 551-557,
randomShapeGenerator.py lines 630-636). -/
structure QRecord where
  question : String
  correct_answer : String
  options : List (String × String)
  difficulty_level : String
  img_path : String
deriving DecidableEq

/-- Code-point lexicographic comparison of strings — the order Python
applies to the `img_path` keys in `out.sort(key=lambda r: r["img_path"])`
(untitled1.py line 573). -/
def strLT (a b : String) : Prop :=
  List.Lex (fun c d : Char => c < d) a.data b.data

instance (a b : String) : Decidable (strLT a b) :=
  inferInstanceAs (Decidable (List.Lex (fun c d : Char => c < d) a.data b.data))

instance : IsIrrefl Char (fun c d : Char => c < d) :=
  ⟨fun a h => lt_irrefl a h⟩

instance : IsAsymm Char (fun c d : Char => c < d) :=
  ⟨fun _ _ h h2 => absurd h2 (lt_asymm h)⟩

instance : IsTrans Char (fun c d : Char => c < d) :=
  ⟨fun _ _ _ h1 h2 => lt_trans h1 h2⟩

instance : IsTrichotomous Char (fun c d : Char => c < d) :=
  ⟨fun a b => lt_trichotomy a b⟩

instance : IsStrictTotalOrder Char (fun c d : Char => c < d) := {}

instance : IsAsymm String strLT :=
  ⟨fun _ _ h h2 =>
    IsAsymm.asymm (r := List.Lex fun c d : Char => c < d) _ _ h h2⟩

instance : IsTrans String strLT :=
  ⟨fun _ _ _ h1 h2 =>
    IsTrans.trans (r := List.Lex fun c d : Char => c < d) _ _ _ h1 h2⟩

/-- The non-strict sort relation on records keyed by `img_path`. -/
def recLE (a b : QRecord) : Prop := ¬ strLT b.img_path a.img_path

instance : DecidableRel recLE := fun a b =>
  inferInstanceAs (Decidable (¬ strLT b.img_path a.img_path))

instance : IsTotal QRecord recLE := ⟨by
  intro a b
  by_cases h : strLT b.img_path a.img_path
  · right
    exact asymm h
  · left
    exact h⟩

instance : IsTrans QRecord recLE := ⟨by
  intro a b c hab hbc hca
  rcases trichotomous_of (List.Lex fun c d : Char => c < d)
      b.img_path.data a.img_path.data with h | h | h
  · exact hab h
  · apply hbc
    unfold strLT at hca ⊢
    rw [h]
    exact hca
  · exact hbc (IsTrans.trans _ _ _ hca h)⟩

/-- Strict-or-equal companion relation, antisymmetric on records. -/
def recOrd (a b : QRecord) : Prop := strLT a.img_path b.img_path ∨ a = b

instance : IsAntisymm QRecord recOrd := ⟨by
  intro a b hab hba
  rcases hab with h | h
  · rcases hba with h2 | h2
    · exact absurd h (asymm h2)
    · exact h2.symm
  · exact h⟩

/-- The manifest sort of untitled1.py line 573 (a stable sort by the
`img_path` string). -/
def sortRecords (l : List QRecord) : List QRecord := List.insertionSort recLE l

/-- Sample records whose image indices and tiers exercise the sort key. -/
def recQ2 : QRecord :=
  { question := "q2", correct_answer := "A", options := [],
    difficulty_level := "easy", img_path := "images/easy/Q2.png" }

/-- Sample record with image index 10 in the easy tier. -/
def recQ10 : QRecord :=
  { question := "q10", correct_answer := "B", options := [],
    difficulty_level := "easy", img_path := "images/easy/Q10.png" }

/-- Sample record with image index 3 in the difficult tier. -/
def recDifficultQ3 : QRecord :=
  { question := "q3", correct_answer := "C", options := [],
    difficulty_level := "difficult", img_path := "images/difficult/Q3.png" }

/-- C8 (counterexample): sorting by the `img_path` string does not order
records by image index: `Q10` sorts before `Q2` (lexicographically
`"1" < "2"`), and a record of the difficult tier with a larger index sorts
before an easy-tier record with a smaller one, because the difficulty
directory dominates the key. -/
theorem C8_counterexample :
    sortRecords [recQ2, recQ10] = [recQ10, recQ2] ∧
    [recQ10, recQ2] ≠ [recQ2, recQ10] ∧
    sortRecords [recQ2, recDifficultQ3] = [recDifficultQ3, recQ2] := by
  refine ⟨by decide, by decide, by decide⟩

/-- C8 (amended): the manifest is aggregated from all completed workers
and then sorted by the `img_path` string; for pairwise-distinct image
paths this output is deterministic — any two completion orders of the same
records sort to the same list — and is sorted by the string key, but that
key orders by difficulty directory first and compares index digits
lexicographically (Q10 < Q2), not by numeric image index. -/
theorem C8_sorted_deterministic :
    ∀ l₁ l₂ : List QRecord, List.Perm l₁ l₂ →
      l₁.Pairwise (fun a b => a.img_path ≠ b.img_path) →
      sortRecords l₁ = sortRecords l₂ ∧
        (sortRecords l₁).Pairwise recLE := by
  intro l₁ l₂ hperm hnd
  have hs₁ : (sortRecords l₁).Pairwise recLE :=
    List.sorted_insertionSort recLE l₁
  have hs₂ : (sortRecords l₂).Pairwise recLE :=
    List.sorted_insertionSort recLE l₂
  have hsym : ∀ {x y : QRecord}, x.img_path ≠ y.img_path →
      y.img_path ≠ x.img_path := by
    intro x y h h2
    exact h h2.symm
  have hp₁ : List.Perm (sortRecords l₁) l₁ := List.perm_insertionSort recLE l₁
  have hp₂ : List.Perm (sortRecords l₂) l₂ := List.perm_insertionSort recLE l₂
  have hnd₁ : (sortRecords l₁).Pairwise (fun a b => a.img_path ≠ b.img_path) :=
    (List.Perm.pairwise_iff hsym hp₁).mpr hnd
  have hnd₂ : (sortRecords l₂).Pairwise (fun a b => a.img_path ≠ b.img_path) :=
    (List.Perm.pairwise_iff hsym hp₂).mpr
      ((List.Perm.pairwise_iff hsym hperm).mp hnd)
  have hkey : ∀ {x y : QRecord}, recLE x y → x.img_path ≠ y.img_path →
      recOrd x y := by
    intro x y hle hne
    left
    rcases trichotomous_of (List.Lex fun c d : Char => c < d)
        x.img_path.data y.img_path.data with h | h | h
    · exact h
    · exfalso
      apply hne
      have hx := x.img_path
      revert h
      cases hgoal : x.img_path with
      | mk dx =>
        cases hgoal2 : y.img_path with
        | mk dy =>
          intro h
          simp only at h
          rw [h]
    · exact absurd h hle
  have hsord₁ : (sortRecords l₁).Pairwise recOrd :=
    (hs₁.and hnd₁).imp (fun h => hkey h.1 h.2)
  have hsord₂ : (sortRecords l₂).Pairwise recOrd :=
    (hs₂.and hnd₂).imp (fun h => hkey h.1 h.2)
  have hcomb : List.Perm (sortRecords l₁) (sortRecords l₂) :=
    hp₁.trans (hperm.trans hp₂.symm)
  exact ⟨List.eq_of_perm_of_sorted hcomb hsord₁ hsord₂, hs₁⟩

/-- Witness for C8 (amended): the two completion orders of the same two
records produce the same sorted manifest. -/
theorem C8_sorted_deterministic_witness :
    sortRecords [recQ2, recQ10] = sortRecords [recQ10, recQ2] ∧
    (sortRecords [recQ2, recQ10]).Pairwise recLE :=
  C8_sorted_deterministic [recQ2, recQ10] [recQ10, recQ2]
    (List.Perm.swap recQ10 recQ2 []) (by decide)

/-! ### Claim C10 -/

/-- Record assembly in randomShapeGenerator.py `main` (lines 630-636):
the `correct_answer` field carries the VALUE string of the correct option,
`options[correct_letter]`. -/
def rsg_record (qtext : String) (options : List (String × String))
    (letter : String) (diff imgPath : String) : QRecord :=
  { question := qtext
    correct_answer := (options.lookup letter).getD ""
    options := options
    difficulty_level := diff
    img_path := imgPath }

/-- Record assembly in untitled1.py `build_one` (lines 551-557): the
`correct_answer` field carries the correct LETTER itself. -/
def u1_record (qtext : String) (options : List (String × String))
    (letter : String) (diff imgPath : String) : QRecord :=
  { question := qtext
    correct_answer := letter
    options := options
    difficulty_level := diff
    img_path := imgPath }

/-- The letter returned by the option builders is always one of A-E. -/
theorem labels_getD_mem (n : ℕ) : optionLabels.getD n "A" ∈ optionLabels := by
  by_cases h : n < optionLabels.length
  · rw [List.getD_eq_getElem?_getD, List.getElem?_eq_getElem h]
    exact List.getElem_mem h
  · rw [List.getD_eq_getElem?_getD, List.getElem?_eq_none (by omega)]
    decide

/-- C10: the two variants serialize the same manifest key with different
meanings.  In randomShapeGenerator.py the `correct_answer` field equals
the correct option's value string (the mapping looked up at the correct
letter); in untitled1.py it equals the correct letter itself, one of
`A`-`E`; consequently, for the identical question, options and letter,
the two serialized records differ. -/
theorem C10_correct_answer_divergence :
    (∀ (q : String) (opts : List (String × String)) (letter diff path : String),
      (rsg_record q opts letter diff path).correct_answer =
        (opts.lookup letter).getD "") ∧
    (∀ (q : String) (opts : List (String × String)) (letter diff path : String),
      (u1_record q opts letter diff path).correct_answer = letter) ∧
    (∀ (correct spread : ℤ) (draws : List (ℕ × Bool)) (shuf : List ℕ)
        (opts : List (String × String)) (letter : String),
        mcq_options_int correct spread draws shuf = some (opts, letter) →
        letter ∈ optionLabels) ∧
    rsg_record "Q" [("A", "12"), ("B", "13"), ("C", "14"), ("D", "15"),
        ("E", "16")] "A" "easy" "p" ≠
      u1_record "Q" [("A", "12"), ("B", "13"), ("C", "14"), ("D", "15"),
        ("E", "16")] "A" "easy" "p" := by
  refine ⟨fun q opts letter diff path => rfl,
    fun q opts letter diff path => rfl, ?_, by decide⟩
  intro correct spread draws shuf opts letter h
  unfold mcq_options_int at h
  match hcol : collectInt correct (mcqLimit spread correct) draws [correct] with
  | none => rw [hcol] at h; cases h
  | some cand =>
    rw [hcol] at h
    simp only [Option.some.injEq, Prod.mk.injEq] at h
    rw [← h.2]
    exact labels_getD_mem _

/-- Witness for C10's builder-letter clause at a concrete run. -/
theorem C10_correct_answer_divergence_witness : "A" ∈ optionLabels :=
  C10_correct_answer_divergence.2.2.1 25 8
    [(0, true), (1, true), (2, true), (3, true)] [] _ _ mcq_int_25_eval
